import Mathlib

/-!
# Verification of the sovereign CDN edge-cache node

A shallow embedding of `src/cdn/sovereign-node.mjs` (the edge-cache node:
LRU cache, location-hint table, peer registry, gossip listener, request
resolution pipeline, shutdown sequence), together with proofs of the
behavioural claims made by the specification.

JavaScript `Map` objects are modelled as association lists in insertion
order: `Map.get` finds the first binding, `Map.delete` removes it, and
`Map.set` updates an existing binding in place or appends a fresh one —
exactly the observable semantics the source relies on for LRU ordering.
-/


section AssocMap

variable {α β : Type} [DecidableEq α]

/-- Models `Map.get`: first binding for a key, if any. -/
def jget : List (α × β) → α → Option β
  | [], _ => none
  | (k, v) :: rest, key => if k = key then some v else jget rest key

/-- Models `Map.delete`: remove the binding for a key (the first, if several). -/
def jerase : List (α × β) → α → List (α × β)
  | [], _ => []
  | (k, v) :: rest, key => if k = key then rest else (k, v) :: jerase rest key

/-- Models `Map.set`: update an existing binding in place, else append at the end. -/
def jset : List (α × β) → α → β → List (α × β)
  | [], key, val => [(key, val)]
  | (k, v) :: rest, key, val =>
    if k = key then (key, val) :: rest else (k, v) :: jset rest key val

/-- The keys of a map, in insertion order. -/
def jkeys (l : List (α × β)) : List α := l.map Prod.fst

end AssocMap

section Cache

/-- One cache slot: `{ value, size }` (the stored `timestamp` is written by
`set` but never read anywhere in the source, so it is not modelled). -/
structure CacheEntry where
  value : String
  size : Nat
deriving DecidableEq, Repr

/-- Models `Buffer.byteLength(value)`: UTF-8 byte size of the payload. -/
def byteLength (s : String) : Nat := s.utf8ByteSize

/-- The `LRUCache` class: dual capacity limits, insertion-ordered map and a
running byte counter (an integer, as in JavaScript; it is kept in sync with
the entry sizes, which we prove rather than assume). -/
structure LRUCache where
  maxSize : Nat
  maxBytes : Nat
  cache : List (String × CacheEntry)
  currentBytes : Int
deriving DecidableEq, Repr

/-- A freshly constructed cache (the source defaults are 500 items and
100 MiB; both limits are parameters here as in the constructor). -/
def LRUCache.empty (maxSize maxBytes : Nat) : LRUCache :=
  ⟨maxSize, maxBytes, [], 0⟩

/-- Models `LRUCache.get`: on a hit the entry is deleted and re-inserted, moving it
to the most-recently-used end; the hit value is returned alongside the
updated cache (state-passing rendering of the mutation). -/
def LRUCache.get (c : LRUCache) (key : String) : Option String × LRUCache :=
  match jget c.cache key with
  | none => (none, c)
  | some entry =>
    (some entry.value, { c with cache := jset (jerase c.cache key) key entry })

/-- The eviction loop of `LRUCache.set`: while the item count is at least
`maxSize` or admitting `size` more bytes would pass `maxBytes`, and the cache
is non-empty, drop the least-recently-used (first) entry. -/
def evictLoop (maxSize maxBytes size : Nat) :
    List (String × CacheEntry) → Int → List (String × CacheEntry) × Int
  | [], bytes => ([], bytes)
  | (k, e) :: rest, bytes =>
    if maxSize ≤ ((k, e) :: rest).length ∨ (maxBytes : Int) < bytes + size then
      evictLoop maxSize maxBytes size rest (bytes - e.size)
    else ((k, e) :: rest, bytes)

/-- Models `LRUCache.set`: subtract and remove any old binding for the key, run the
eviction loop, then append the new entry and add its size. -/
def LRUCache.set (c : LRUCache) (key value : String) : LRUCache :=
  let size := byteLength value
  let p : List (String × CacheEntry) × Int :=
    match jget c.cache key with
    | some old => (jerase c.cache key, c.currentBytes - (old.size : Int))
    | none => (c.cache, c.currentBytes)
  let r := evictLoop c.maxSize c.maxBytes size p.1 p.2
  { c with cache := jset r.1 key ⟨value, size⟩, currentBytes := r.2 + size }

/-- Models `LRUCache.has`: pure membership check. -/
def LRUCache.has (c : LRUCache) (key : String) : Bool :=
  (jget c.cache key).isSome

/-- Total bytes actually held by the entries. -/
def sumSizes : List (String × CacheEntry) → Nat
  | [] => 0
  | (_, e) :: rest => e.size + sumSizes rest

/-- Internal consistency of a cache state: distinct keys, and the running
byte counter equals the sum of the entry sizes. -/
def CacheWf (c : LRUCache) : Prop :=
  (jkeys c.cache).Nodup ∧ c.currentBytes = (sumSizes c.cache : Int)

instance (c : LRUCache) : Decidable (CacheWf c) :=
  inferInstanceAs (Decidable ((jkeys c.cache).Nodup ∧ c.currentBytes = (sumSizes c.cache : Int)))

/-- A sequence of `put` operations applied in order. -/
def applyPuts (c : LRUCache) (ops : List (String × String)) : LRUCache :=
  ops.foldl (fun acc p => acc.set p.1 p.2) c

end Cache

section Node

/-- The lightweight stats block carried inside a gossip announcement
(`data.stats`); each field may be absent in a received datagram. -/
structure AnnStats where
  requests : Option Nat
  cacheHits : Option Nat
  uptime : Option Nat
deriving DecidableEq, Repr

/-- The empty object `{}` used as the fallback for a missing stats block. -/
def AnnStats.emptyObj : AnnStats := ⟨none, none, none⟩

/-- A peer-registry record. The key under which it is stored is the received
`data.nodeId`, an `Option String` because a `peer_announce` datagram may lack
the field (JavaScript `undefined`, modelled as `none`). -/
structure PeerRecord where
  nodeId : Option String
  nodeName : String
  address : String
  port : Option Nat
  lastSeen : Nat
  cacheSize : Nat
  cacheBytes : Nat
  annStats : AnnStats
deriving DecidableEq, Repr

/-- The node's statistics counters. -/
structure Stats where
  requests : Nat
  cacheHits : Nat
  cacheMisses : Nat
  bytesServed : Nat
  peerRequests : Nat
  peerHits : Nat
  githubFallbacks : Nat
  startTime : Nat
deriving DecidableEq, Repr

/-- Mutable state owned by a `SovereignCDNNode`: identity, content cache,
peer registry (`peers`), location-hint table (`dht`) and counters. -/
structure NodeState where
  nodeId : String
  cache : LRUCache
  peers : List (Option String × PeerRecord)
  dht : List (String × List String)
  stats : Stats
deriving DecidableEq, Repr

/-- Models `SovereignCDNNode.updateDHT`: ensure an entry exists for the content
hash, append the node identifier unless already present, and drop the oldest
identifier when the sequence grows past the replication factor 3. -/
def updateDHT (dht : List (String × List String)) (contentHash nodeId : String) :
    List (String × List String) :=
  let dht0 := if (jget dht contentHash).isSome then dht else jset dht contentHash []
  let nodes := (jget dht0 contentHash).getD []
  if nodeId ∈ nodes then dht0
  else
    let nodes1 := nodes ++ [nodeId]
    let nodes2 := if 3 < nodes1.length then nodes1.tail else nodes1
    jset dht0 contentHash nodes2

/-- A received discovery datagram after `JSON.parse`: either the parse threw
(non-JSON), or it produced an object whose fields of interest are each
present or absent. -/
inductive Datagram where
  | nonJson : Datagram
  | json (type nodeId nodeName : Option String)
      (port timestamp cacheSize cacheBytes : Option Nat)
      (stats : Option AnnStats) : Datagram
deriving DecidableEq, Repr

/-- JavaScript `x || fallback` on an optional string field: the fallback is
used when the field is absent or the empty string, both falsy. -/
def jsOrElse (x : Option String) (fallback : String) : String :=
  match x with
  | none => fallback
  | some s => if s = "" then fallback else s

/-- Models `SovereignCDNNode.handlePeerMessage`: the whole body runs inside a
try/catch, so the function is total (a malformed datagram never raises to
the caller). On `type === 'peer_announce' && nodeId !== this.nodeId` the
registry entry for that (possibly absent) `nodeId` is created or replaced;
otherwise the registry is untouched. `now` stands for `Date.now()` and
`senderAddress` for `rinfo.address`. -/
def handlePeerMessage (selfId : String) (now : Nat) (senderAddress : String)
    (peers : List (Option String × PeerRecord)) (d : Datagram) :
    List (Option String × PeerRecord) :=
  match d with
  | .nonJson => peers
  | .json type nodeId nodeName port _timestamp cacheSize cacheBytes stats =>
    if type = some "peer_announce" ∧ nodeId ≠ some selfId then
      jset peers nodeId
        { nodeId := nodeId
          nodeName := jsOrElse nodeName "unknown"
          address := senderAddress
          port := port
          lastSeen := now
          cacheSize := cacheSize.getD 0
          cacheBytes := cacheBytes.getD 0
          annStats := stats.getD AnnStats.emptyObj }
    else peers

/-- The network oracle behind `fetch`: given a peer's recorded address and
port and the request path, yield the response text when the peer answers
with a success status, and `none` on timeout, connection failure,
non-success status, or an unbuildable URL (absent port). -/
def Net : Type := String → Option Nat → String → Option String

/-- Models `SovereignCDNNode.fetchFromPeer`: resolve the peer in the registry
(`none` short-circuits without touching counters), bump `peerRequests`,
then attempt the network fetch. Returns the fetched text (if any) and the
updated counters. -/
def fetchFromPeer (net : Net) (peers : List (Option String × PeerRecord))
    (stats : Stats) (nodeId path : String) : Option String × Stats :=
  match jget peers (some nodeId) with
  | none => (none, stats)
  | some peer =>
    (net peer.address peer.port path,
      { stats with peerRequests := stats.peerRequests + 1 })

/-- The peer-tier loop of `handleRequest`: walk the location-hint candidates
in recorded order, skipping self; stop at the first fetch whose result is
truthy under the source's `if (content)` check — present AND non-empty:
an `ok` response with an empty body is falsy in JavaScript and the loop
continues past it, exactly like a failed fetch, with the counters
accumulated so far. -/
def tryPeers (net : Net) (selfId : String)
    (peers : List (Option String × PeerRecord)) (path : String) :
    List String → Stats → Option (String × String) × Stats
  | [], stats => (none, stats)
  | n :: rest, stats =>
    if n = selfId then tryPeers net selfId peers path rest stats
    else
      let r := fetchFromPeer net peers stats n path
      match r.1 with
      | some content =>
        if content = "" then tryPeers net selfId peers path rest r.2
        else (some (n, content), r.2)
      | none => tryPeers net selfId peers path rest r.2

/-- An HTTP response as far as the spec observes it: status code, the
`X-CDN-Node`, `X-CDN-Source` and `X-CDN-Peer` headers, and the body
(`none` for the administrative JSON snapshots, whose serialization is not
modelled). -/
structure Response where
  status : Nat
  node : Option String
  source : Option String
  peer : Option String
  body : Option String
deriving DecidableEq, Repr

/-- Steps 2 and 3 of `SovereignCDNNode.handleRequest` (peer tier over the
location hints, then backing store), entered whenever the cache tier yielded
no truthy value — a real miss, or a cached empty string, which the source's
`if (cached)` treats as falsy. `st` already reflects the recency mutation
the `get` call made to the cache; `stats0` carries the bumped `requests`
counter. -/
def handleMiss (hashPath : String → String) (net : Net)
    (backing : Option (String → Option String)) (st : NodeState)
    (stats0 : Stats) (path : String) : Response × NodeState :=
  let stats1 := { stats0 with cacheMisses := stats0.cacheMisses + 1 }
  let contentHash := hashPath path
  let nodes := (jget st.dht contentHash).getD []
  let pr := tryPeers net st.nodeId st.peers path nodes stats1
  match pr.1 with
  | some pc =>
    let stats2 := { pr.2 with peerHits := pr.2.peerHits + 1 }
    let cache2 := st.cache.set path pc.2
    let stats3 := { stats2 with bytesServed := stats2.bytesServed + pc.2.length }
    (⟨200, some st.nodeId, some "peer", some pc.1, some pc.2⟩,
      { st with cache := cache2, stats := stats3 })
  | none =>
    match backing with
    | none =>
      (⟨404, none, none, none, some "Not found (no backing store)"⟩,
        { st with stats := pr.2 })
    | some read =>
      let stats2 := { pr.2 with githubFallbacks := pr.2.githubFallbacks + 1 }
      match read path with
      | some content =>
        let cache2 := st.cache.set path content
        let dht2 := updateDHT st.dht contentHash st.nodeId
        let stats3 := { stats2 with bytesServed := stats2.bytesServed + content.length }
        (⟨200, some st.nodeId, some "github", none, some content⟩,
          { st with cache := cache2, dht := dht2, stats := stats3 })
      | none =>
        (⟨404, none, none, none, some "Not found"⟩, { st with stats := stats2 })

/-- Models `SovereignCDNNode.handleRequest`, state-passing: the `requests`
counter is bumped first; the three administrative endpoints return
immediately; otherwise the cache tier runs, and the request is served from
the cache only when the looked-up value is truthy under the source's
`if (cached)` check (present and non-empty) — a cached empty string falls
through to `handleMiss` like a real miss (though the `get` call has still
refreshed its recency). Backing-store `read` failures are modelled as
`none`. -/
def handleRequest (hashPath : String → String) (net : Net)
    (backing : Option (String → Option String)) (st : NodeState)
    (path : String) : Response × NodeState :=
  let stats0 := { st.stats with requests := st.stats.requests + 1 }
  if path = "/stats" then
    (⟨200, none, none, none, none⟩, { st with stats := stats0 })
  else if path = "/health" then
    (⟨200, none, none, none, none⟩, { st with stats := stats0 })
  else if path = "/peers" then
    (⟨200, none, none, none, none⟩, { st with stats := stats0 })
  else
    let g := st.cache.get path
    let st1 := { st with cache := g.2 }
    match g.1 with
    | some cached =>
      if cached = "" then handleMiss hashPath net backing st1 stats0 path
      else
        let stats1 := { stats0 with
          cacheHits := stats0.cacheHits + 1
          bytesServed := stats0.bytesServed + cached.length }
        (⟨200, some st.nodeId, some "cache", none, some cached⟩,
          { st1 with stats := stats1 })
    | none => handleMiss hashPath net backing st1 stats0 path

/-- The three actions of `SovereignCDNNode.shutdown`, as an emitted trace. -/
inductive ShutdownStep where
  | cancelAnnounceTimer : ShutdownStep
  | closeHttpServer : ShutdownStep
  | closeDiscoverySocket : ShutdownStep
deriving DecidableEq, Repr

/-- Models `SovereignCDNNode.shutdown`: each resource, when present, is released in
the program order of the source. -/
def shutdownSequence (hasAnnounceTimer hasServer hasDiscoverySocket : Bool) :
    List ShutdownStep :=
  (if hasAnnounceTimer then [ShutdownStep.cancelAnnounceTimer] else []) ++
  (if hasServer then [ShutdownStep.closeHttpServer] else []) ++
  (if hasDiscoverySocket then [ShutdownStep.closeDiscoverySocket] else [])

/-- Every node-identifier sequence in the location table is duplicate-free. -/
def DhtNodup (dht : List (String × List String)) : Prop :=
  ∀ p ∈ dht, List.Nodup p.2

instance (dht : List (String × List String)) : Decidable (DhtNodup dht) :=
  inferInstanceAs (Decidable (∀ p ∈ dht, List.Nodup p.2))



/-- The code's acceptance guard for a gossip datagram:
`data.type === 'peer_announce' && data.nodeId !== this.nodeId`. -/
def announceAccepted (selfId : String) (d : Datagram) : Bool :=
  match d with
  | .nonJson => false
  | .json type nodeId _ _ _ _ _ _ =>
    type == some "peer_announce" && nodeId != some selfId

/-- Modelled from the spec: section 6 fixes the discovery datagram schema as
the JSON object `{type:"peer_announce", nodeId, nodeName, port, timestamp,
cacheSize, cacheBytes, stats}`. A datagram parses as a valid `peer_announce`
exactly when it is JSON of that shape with every field present. -/
def validAnnounceSpec (d : Datagram) : Bool :=
  match d with
  | .nonJson => false
  | .json type nodeId nodeName port timestamp cacheSize cacheBytes stats =>
    type == some "peer_announce" && nodeId.isSome && nodeName.isSome &&
      port.isSome && timestamp.isSome && cacheSize.isSome &&
      cacheBytes.isSome && stats.isSome

/-- A peer-tier candidate that yields no truthy content: it is self, or
unknown to the registry, or the network fetch for it fails (timeout,
refusal, non-success status), or the fetch succeeds with an empty body —
falsy under the source's `if (content)` check, so the loop passes over it
too. -/
def candidateFails (net : Net) (selfId : String)
    (peers : List (Option String × PeerRecord)) (path n : String) : Bool :=
  n == selfId ||
    (match jget peers (some n) with
     | none => true
     | some p =>
       match net p.address p.port path with
       | none => true
       | some s => s == "")

/-- How many candidates of a list cause an actual fetch attempt (non-self
and resolvable in the registry); each bumps `peerRequests` once. -/
def countFetched (selfId : String) (peers : List (Option String × PeerRecord))
    (ns : List String) : Nat :=
  (ns.filter (fun n => !(n == selfId) && (jget peers (some n)).isSome)).length

/-- Concrete fixtures used to evaluate the theorems on closed inputs. -/
def demoStats : Stats := ⟨0, 0, 0, 0, 0, 0, 0, 0⟩

def demoNode : NodeState := ⟨"self", LRUCache.empty 4 1000, [], [], demoStats⟩

def demoPeer1 : PeerRecord :=
  ⟨some "p1", "peer-one", "10.0.0.1", some 5650, 0, 0, 0, AnnStats.emptyObj⟩

def demoPeer3 : PeerRecord :=
  ⟨some "p3", "peer-three", "10.0.0.3", some 5650, 0, 0, 0, AnnStats.emptyObj⟩

def demoPeers : List (Option String × PeerRecord) :=
  [(some "p1", demoPeer1), (some "p3", demoPeer3)]

/-- A network in which only the peer at `10.0.0.3` answers. -/
def demoNet : Net := fun addr _ _ => if addr == "10.0.0.3" then some "C" else none

def demoDht : List (String × List String) := [("/x", ["p1", "p2", "self", "p3", "p4"])]

def peerNode : NodeState := ⟨"self", LRUCache.empty 4 1000, demoPeers, demoDht, demoStats⟩

/-- A registered peer whose fetches succeed but with an empty body. -/
def emptyPeer : PeerRecord :=
  ⟨some "e1", "peer-empty", "10.0.0.7", some 5650, 0, 0, 0, AnnStats.emptyObj⟩

/-- A network in which every fetch succeeds with an empty response body. -/
def emptyNet : Net := fun _ _ _ => some ""

/-- A node whose only location hint for `/x` is the empty-body peer. -/
def emptyNode : NodeState :=
  ⟨"self", LRUCache.empty 4 1000, [(some "e1", emptyPeer)], [("/x", ["e1"])], demoStats⟩

end Node

section AssocMapLemmas

variable {α β : Type} [DecidableEq α]

theorem jget_jset_self (l : List (α × β)) (k : α) (v : β) :
    jget (jset l k v) k = some v := by
  induction l with
  | nil => simp [jset, jget]
  | cons hd tl ih =>
    obtain ⟨k₀, v₀⟩ := hd
    by_cases h : k₀ = k
    · simp [jset, jget, h]
    · simp [jset, jget, h, ih]

theorem jerase_sublist (l : List (α × β)) (k : α) :
    List.Sublist (jerase l k) l := by
  induction l with
  | nil => simp [jerase]
  | cons hd tl ih =>
    obtain ⟨k₀, v₀⟩ := hd
    by_cases h : k₀ = k
    · simp only [jerase, if_pos h]
      exact List.sublist_cons_self (k₀, v₀) tl
    · simp only [jerase, if_neg h]
      exact ih.cons₂ (k₀, v₀)

theorem jget_eq_none_iff (l : List (α × β)) (k : α) :
    jget l k = none ↔ k ∉ jkeys l := by
  induction l with
  | nil => simp [jget, jkeys]
  | cons hd tl ih =>
    obtain ⟨k₀, v₀⟩ := hd
    simp only [jkeys] at ih ⊢
    by_cases h : k₀ = k
    · subst h
      simp [jget]
    · simp only [jget, if_neg h, List.map_cons, List.mem_cons]
      rw [ih]
      constructor
      · intro hk hmem
        rcases hmem with hmem | hmem
        · exact h hmem.symm
        · exact hk hmem
      · intro hk hmem
        exact hk (Or.inr hmem)

theorem not_mem_jkeys_jerase (l : List (α × β)) (k : α)
    (hnd : (jkeys l).Nodup) : k ∉ jkeys (jerase l k) := by
  induction l with
  | nil => simp [jerase, jkeys]
  | cons hd tl ih =>
    obtain ⟨k₀, v₀⟩ := hd
    simp only [jkeys, List.map_cons, List.nodup_cons] at hnd
    by_cases h : k₀ = k
    · subst h
      simpa [jerase, jkeys] using hnd.1
    · intro hmem
      simp only [jerase, if_neg h, jkeys, List.map_cons, List.mem_cons] at hmem
      rcases hmem with hmem | hmem
      · exact h hmem.symm
      · exact ih hnd.2 hmem

theorem jset_eq_append (l : List (α × β)) (k : α) (v : β)
    (h : k ∉ jkeys l) : jset l k v = l ++ [(k, v)] := by
  induction l with
  | nil => simp [jset]
  | cons hd tl ih =>
    obtain ⟨k₀, v₀⟩ := hd
    simp only [jkeys, List.map_cons, List.mem_cons] at h
    push_neg at h
    have hne : ¬ k₀ = k := fun hh => h.1 hh.symm
    simp only [jset, if_neg hne]
    rw [ih (by simpa [jkeys] using h.2)]
    simp

theorem jset_length_le (l : List (α × β)) (k : α) (v : β) :
    (jset l k v).length ≤ l.length + 1 := by
  induction l with
  | nil => simp [jset]
  | cons hd tl ih =>
    obtain ⟨k₀, v₀⟩ := hd
    by_cases h : k₀ = k
    · simp [jset, h]
    · simpa [jset, h] using Nat.succ_le_succ ih

theorem mem_jset (l : List (α × β)) (k : α) (v : β) (p : α × β)
    (hp : p ∈ jset l k v) : p ∈ l ∨ p = (k, v) := by
  induction l with
  | nil => simpa [jset] using hp
  | cons hd tl ih =>
    obtain ⟨k₀, v₀⟩ := hd
    by_cases h : k₀ = k
    · simp only [jset, if_pos h, List.mem_cons] at hp
      rcases hp with hp | hp
      · exact Or.inr hp
      · exact Or.inl (List.mem_cons_of_mem _ hp)
    · simp only [jset, if_neg h, List.mem_cons] at hp
      rcases hp with hp | hp
      · exact Or.inl (by simp [hp])
      · rcases ih hp with hh | hh
        · exact Or.inl (List.mem_cons_of_mem _ hh)
        · exact Or.inr hh

theorem jget_mem (l : List (α × β)) (k : α) (v : β)
    (h : jget l k = some v) : (k, v) ∈ l := by
  induction l with
  | nil => simp [jget] at h
  | cons hd tl ih =>
    obtain ⟨k₀, v₀⟩ := hd
    by_cases hk : k₀ = k
    · simp only [jget, if_pos hk] at h
      subst hk
      simp [← Option.some_inj.mp h]
    · simp only [jget, if_neg hk] at h
      exact List.mem_cons_of_mem _ (ih h)

end AssocMapLemmas

section CacheLemmas

theorem sumSizes_append (l₁ l₂ : List (String × CacheEntry)) :
    sumSizes (l₁ ++ l₂) = sumSizes l₁ + sumSizes l₂ := by
  induction l₁ with
  | nil => simp [sumSizes]
  | cons hd tl ih =>
    obtain ⟨k, e⟩ := hd
    show e.size + sumSizes (tl ++ l₂) = e.size + sumSizes tl + sumSizes l₂
    rw [ih]
    omega

theorem sumSizes_jerase (l : List (String × CacheEntry)) (k : String)
    (old : CacheEntry) (h : jget l k = some old) :
    old.size + sumSizes (jerase l k) = sumSizes l := by
  induction l with
  | nil => simp [jget] at h
  | cons hd tl ih =>
    obtain ⟨k₀, e₀⟩ := hd
    by_cases hk : k₀ = k
    · simp only [jget, if_pos hk] at h
      simp only [jerase, if_pos hk, sumSizes, ← Option.some_inj.mp h]
    · simp only [jget, if_neg hk] at h
      simp only [jerase, if_neg hk, sumSizes]
      have := ih h
      omega

theorem evictLoop_drop (maxSize maxBytes size : Nat) :
    ∀ (l : List (String × CacheEntry)) (y : Int),
      ∃ j, (evictLoop maxSize maxBytes size l y).1 = l.drop j := by
  intro l
  induction l with
  | nil => intro y; exact ⟨0, rfl⟩
  | cons hd tl ih =>
    intro y
    obtain ⟨k, e⟩ := hd
    simp only [evictLoop]
    by_cases hc :
        maxSize ≤ ((k, e) :: tl).length ∨ (maxBytes : Int) < y + size
    · rw [if_pos hc]
      obtain ⟨j, hj⟩ := ih (y - e.size)
      exact ⟨j + 1, by simpa using hj⟩
    · rw [if_neg hc]
      exact ⟨0, rfl⟩

theorem evictLoop_bytes (maxSize maxBytes size : Nat) :
    ∀ (l : List (String × CacheEntry)) (y : Int),
      (evictLoop maxSize maxBytes size l y).2 + (sumSizes l : Int) =
        y + (sumSizes (evictLoop maxSize maxBytes size l y).1 : Int) := by
  intro l
  induction l with
  | nil => intro y; simp [evictLoop]
  | cons hd tl ih =>
    intro y
    obtain ⟨k, e⟩ := hd
    simp only [evictLoop]
    by_cases hc :
        maxSize ≤ ((k, e) :: tl).length ∨ (maxBytes : Int) < y + size
    · rw [if_pos hc]
      have := ih (y - e.size)
      simp only [sumSizes]
      push_cast at this ⊢
      omega
    · rw [if_neg hc]

theorem evictLoop_post (maxSize maxBytes size : Nat) :
    ∀ (l : List (String × CacheEntry)) (y : Int),
      (evictLoop maxSize maxBytes size l y).1 = [] ∨
        ((evictLoop maxSize maxBytes size l y).1.length < maxSize ∧
          (evictLoop maxSize maxBytes size l y).2 + (size : Int) ≤ (maxBytes : Int)) := by
  intro l
  induction l with
  | nil => intro y; exact Or.inl rfl
  | cons hd tl ih =>
    intro y
    obtain ⟨k, e⟩ := hd
    simp only [evictLoop]
    by_cases hc :
        maxSize ≤ ((k, e) :: tl).length ∨ (maxBytes : Int) < y + size
    · rw [if_pos hc]
      exact ih (y - e.size)
    · rw [if_neg hc]
      push_neg at hc
      exact Or.inr ⟨hc.1, hc.2⟩

/-- Master decomposition of `LRUCache.set` on an internally consistent cache:
the result is the surviving least-recently-used prefix-evicted map with the
fresh entry appended, the byte counter is exact, and the eviction loop's exit
condition holds. -/
theorem set_master (c : LRUCache) (key value : String) (h : CacheWf c) :
    ∃ cache2 bytes2,
      (c.set key value).cache = cache2 ++ [(key, ⟨value, byteLength value⟩)] ∧
      (c.set key value).currentBytes = bytes2 + (byteLength value : Int) ∧
      (jkeys cache2).Nodup ∧ key ∉ jkeys cache2 ∧
      bytes2 = (sumSizes cache2 : Int) ∧
      (cache2 = [] ∨
        (cache2.length < c.maxSize ∧
          bytes2 + (byteLength value : Int) ≤ (c.maxBytes : Int))) := by
  obtain ⟨hnd, hacc⟩ := h
  -- the state after the remove-old-entry step
  have hstep : ∃ cache1 bytes1,
      (match jget c.cache key with
        | some old => (jerase c.cache key, c.currentBytes - (old.size : Int))
        | none => (c.cache, c.currentBytes)) = (cache1, bytes1) ∧
      (jkeys cache1).Nodup ∧ key ∉ jkeys cache1 ∧
      bytes1 = (sumSizes cache1 : Int) := by
    cases hc : jget c.cache key with
    | none =>
      exact ⟨c.cache, c.currentBytes, rfl, hnd,
        (jget_eq_none_iff c.cache key).mp hc, hacc⟩
    | some old =>
      refine ⟨jerase c.cache key, c.currentBytes - (old.size : Int), rfl,
        ((jerase_sublist c.cache key).map Prod.fst).nodup hnd,
        not_mem_jkeys_jerase c.cache key hnd, ?_⟩
      have := sumSizes_jerase c.cache key old hc
      rw [hacc]
      omega
  obtain ⟨cache1, bytes1, hp, hnd1, hkey1, hacc1⟩ := hstep
  have hset : (c.set key value).cache =
      jset (evictLoop c.maxSize c.maxBytes (byteLength value) cache1 bytes1).1
        key ⟨value, byteLength value⟩ ∧
      (c.set key value).currentBytes =
      (evictLoop c.maxSize c.maxBytes (byteLength value) cache1 bytes1).2 +
        (byteLength value : Int) := by
    simp only [LRUCache.set]
    rw [hp]
    exact ⟨rfl, rfl⟩
  have hdropsub :
      List.Sublist
        (jkeys (evictLoop c.maxSize c.maxBytes (byteLength value) cache1 bytes1).1)
        (jkeys cache1) := by
    obtain ⟨j, hj⟩ := evictLoop_drop c.maxSize c.maxBytes (byteLength value) cache1 bytes1
    rw [hj]
    exact (List.drop_sublist j cache1).map Prod.fst
  have hnd2 : (jkeys (evictLoop c.maxSize c.maxBytes (byteLength value) cache1 bytes1).1).Nodup :=
    List.Nodup.sublist hdropsub hnd1
  have hkey2 : key ∉ jkeys (evictLoop c.maxSize c.maxBytes (byteLength value) cache1 bytes1).1 :=
    fun hmem => hkey1 (hdropsub.subset hmem)
  have hacc2 : (evictLoop c.maxSize c.maxBytes (byteLength value) cache1 bytes1).2 =
      (sumSizes (evictLoop c.maxSize c.maxBytes (byteLength value) cache1 bytes1).1 : Int) := by
    have := evictLoop_bytes c.maxSize c.maxBytes (byteLength value) cache1 bytes1
    omega
  refine ⟨(evictLoop c.maxSize c.maxBytes (byteLength value) cache1 bytes1).1,
    (evictLoop c.maxSize c.maxBytes (byteLength value) cache1 bytes1).2,
    ?_, hset.2, hnd2, hkey2, hacc2, ?_⟩
  · rw [hset.1, jset_eq_append _ _ _ hkey2]
  · exact evictLoop_post c.maxSize c.maxBytes (byteLength value) cache1 bytes1

/-- The operation `set` preserves internal consistency. -/
theorem set_wf (c : LRUCache) (key value : String) (h : CacheWf c) :
    CacheWf (c.set key value) := by
  obtain ⟨cache2, bytes2, hc, hb, hnd2, hkey2, hacc2, _⟩ := set_master c key value h
  constructor
  · rw [hc]
    simp only [jkeys, List.map_append, List.map_cons, List.map_nil]
    rw [List.nodup_append]
    exact ⟨hnd2, List.nodup_singleton key, by
      intro a ha hb'
      simp only [List.mem_singleton] at hb'
      exact hkey2 (hb' ▸ ha)⟩
  · rw [hc, hb, hacc2, sumSizes_append]
    simp [sumSizes]

/-- The operation `set` keeps the item count within `maxSize` (when the limit is positive),
with no consistency assumption on the incoming state. -/
theorem jset_evictLoop_length_le (m b s : Nat) (l : List (String × CacheEntry))
    (y : Int) (key : String) (e : CacheEntry) (h : 1 ≤ m) :
    (jset (evictLoop m b s l y).1 key e).length ≤ m := by
  rcases evictLoop_post m b s l y with hpost | hpost
  · rw [hpost]
    simpa [jset] using h
  · have h1 := jset_length_le (evictLoop m b s l y).1 key e
    omega

/-- The operation `set` keeps the item count within `maxSize` (when the limit is positive),
with no consistency assumption on the incoming state. -/
theorem set_length_le (c : LRUCache) (key value : String) (h : 1 ≤ c.maxSize) :
    (c.set key value).cache.length ≤ c.maxSize := by
  simp only [LRUCache.set]
  cases hc : jget c.cache key <;>
    exact jset_evictLoop_length_le _ _ _ _ _ _ _ h

/-- After any `set`, looking the key up succeeds with the new value (the
re-inserted binding is found first), so insertion is never rejected. -/
theorem set_get_self (c : LRUCache) (key value : String) :
    ((c.set key value).get key).1 = some value := by
  simp only [LRUCache.set, LRUCache.get]
  rw [jget_jset_self]

/-- After any `set`, the key is present. -/
theorem set_has_self (c : LRUCache) (key value : String) :
    (c.set key value).has key = true := by
  simp only [LRUCache.set, LRUCache.has]
  rw [jget_jset_self]
  rfl

/-- On a consistent cache, admitting a value no larger than `maxBytes`
leaves the byte counter within `maxBytes`. -/
theorem set_bytes_le (c : LRUCache) (key value : String) (h : CacheWf c)
    (hv : byteLength value ≤ c.maxBytes) :
    (c.set key value).currentBytes ≤ (c.maxBytes : Int) := by
  obtain ⟨cache2, bytes2, _, hb, _, _, hacc2, hpost⟩ := set_master c key value h
  rcases hpost with hpost | hpost
  · rw [hb, hacc2, hpost]
    simp [sumSizes]
    omega
  · rw [hb]
    exact hpost.2

/-- On a consistent cache, a value strictly larger than `maxBytes` first
empties the cache and is then admitted anyway: the resulting cache holds
exactly that entry and the byte counter equals its size (exceeding
`maxBytes`). -/
theorem set_oversized (c : LRUCache) (key value : String) (h : CacheWf c)
    (hv : c.maxBytes < byteLength value) :
    (c.set key value).cache = [(key, ⟨value, byteLength value⟩)] ∧
    (c.set key value).currentBytes = (byteLength value : Int) := by
  obtain ⟨cache2, bytes2, hc, hb, _, _, hacc2, hpost⟩ := set_master c key value h
  have hempty : cache2 = [] := by
    rcases hpost with hpost | hpost
    · exact hpost
    · exfalso
      have hnn : (0 : Int) ≤ (sumSizes cache2 : Int) := Int.natCast_nonneg _
      rw [hacc2] at hpost
      omega
  subst hempty
  have hz : bytes2 = 0 := by simpa [sumSizes] using hacc2
  subst hz
  rw [hc, hb]
  simp

/-- The operation `set` does not change the configured limits. -/
theorem set_maxSize (c : LRUCache) (key value : String) :
    (c.set key value).maxSize = c.maxSize := rfl

theorem set_maxBytes (c : LRUCache) (key value : String) :
    (c.set key value).maxBytes = c.maxBytes := rfl

end CacheLemmas

section NodeLemmas

theorem updateDHT_mem (dht : List (String × List String))
    (contentHash nodeId : String) :
    nodeId ∈ (jget (updateDHT dht contentHash nodeId) contentHash).getD [] := by
  simp only [updateDHT]
  set dht0 := if (jget dht contentHash).isSome then dht
    else jset dht contentHash [] with hdht0
  set nodes := (jget dht0 contentHash).getD [] with hnodes
  by_cases hmem : nodeId ∈ nodes
  · rw [if_pos hmem]
    exact hmem
  · rw [if_neg hmem]
    rw [jget_jset_self]
    by_cases hlen : 3 < (nodes ++ [nodeId]).length
    · rw [if_pos hlen]
      cases hn : nodes with
      | nil =>
        rw [hn] at hlen
        simp at hlen
      | cons x xs =>
        simp
    · rw [if_neg hlen]
      simp

/-- Recording an identifier already present for the hash is a no-op. -/
theorem updateDHT_already (dht : List (String × List String))
    (contentHash nodeId : String)
    (h : nodeId ∈ (jget dht contentHash).getD []) :
    updateDHT dht contentHash nodeId = dht := by
  have hsome : (jget dht contentHash).isSome := by
    cases hc : jget dht contentHash with
    | none => rw [hc] at h; simp at h
    | some v => rfl
  simp only [updateDHT, if_pos hsome, if_pos h]

/-- Recording preserves duplicate-freedom of every hint sequence. -/
theorem updateDHT_nodup (dht : List (String × List String))
    (contentHash nodeId : String) (h : DhtNodup dht) :
    DhtNodup (updateDHT dht contentHash nodeId) := by
  simp only [updateDHT]
  set dht0 := if (jget dht contentHash).isSome then dht
    else jset dht contentHash [] with hdht0
  have h0 : DhtNodup dht0 := by
    rw [hdht0]
    split
    · exact h
    · intro p hp
      rcases mem_jset dht contentHash [] p hp with hp | hp
      · exact h p hp
      · rw [hp]
        exact List.nodup_nil
  set nodes := (jget dht0 contentHash).getD [] with hnodes
  have hnd : nodes.Nodup := by
    rw [hnodes]
    cases hc : jget dht0 contentHash with
    | none => simp
    | some v =>
      simpa using h0 (contentHash, v) (jget_mem dht0 contentHash v hc)
  by_cases hmem : nodeId ∈ nodes
  · rw [if_pos hmem]
    exact h0
  · rw [if_neg hmem]
    have hnd1 : (nodes ++ [nodeId]).Nodup := by
      rw [List.nodup_append]
      exact ⟨hnd, List.nodup_singleton nodeId, by
        intro a ha hb
        simp only [List.mem_singleton] at hb
        exact hmem (hb ▸ ha)⟩
    have hnd2 : (if 3 < (nodes ++ [nodeId]).length then (nodes ++ [nodeId]).tail
        else nodes ++ [nodeId]).Nodup := by
      split
      · exact List.Nodup.sublist (List.tail_sublist _) hnd1
      · exact hnd1
    intro p hp
    rcases mem_jset dht0 contentHash _ p hp with hp | hp
    · exact h0 p hp
    · rw [hp]
      exact hnd2

theorem tryPeers_all_fail (net : Net) (selfId : String)
    (peers : List (Option String × PeerRecord)) (path : String) :
    ∀ (ns : List String) (stats : Stats),
      (∀ n ∈ ns, candidateFails net selfId peers path n = true) →
      tryPeers net selfId peers path ns stats =
        (none, { stats with
          peerRequests := stats.peerRequests + countFetched selfId peers ns }) := by
  intro ns
  induction ns with
  | nil =>
    intro stats _
    simp [tryPeers, countFetched]
  | cons n rest ih =>
    intro stats hfail
    have hn := hfail n (List.mem_cons_self n rest)
    have hrest : ∀ m ∈ rest, candidateFails net selfId peers path m = true :=
      fun m hm => hfail m (List.mem_cons_of_mem n hm)
    by_cases hself : n = selfId
    · rw [tryPeers, if_pos hself, ih stats hrest]
      have : countFetched selfId peers (n :: rest) = countFetched selfId peers rest := by
        simp [countFetched, List.filter_cons, hself]
      rw [this]
    · rw [tryPeers, if_neg hself]
      simp only [candidateFails, Bool.or_eq_true, beq_iff_eq] at hn
      rcases hn with hn | hn
      · exact absurd hn hself
      · cases hc : jget peers (some n) with
        | none =>
          rw [hc] at hn
          simp only [fetchFromPeer, hc]
          rw [ih stats hrest]
          have : countFetched selfId peers (n :: rest) = countFetched selfId peers rest := by
            simp [countFetched, List.filter_cons, hself, hc]
          rw [this]
        | some p =>
          simp only [hc] at hn
          have hcount : countFetched selfId peers (n :: rest) =
              countFetched selfId peers rest + 1 := by
            simp [countFetched, List.filter_cons, hself, hc]
          cases hnn : net p.address p.port path with
          | none =>
            simp only [fetchFromPeer, hc, hnn]
            rw [ih _ hrest, hcount]
            cases stats
            simp
            omega
          | some s =>
            simp only [hnn] at hn
            have hse : s = "" := by simpa using hn
            subst hse
            simp only [fetchFromPeer, hc, hnn]
            rw [if_pos trivial, ih _ hrest, hcount]
            cases stats
            simp
            omega

theorem tryPeers_first_success (net : Net) (selfId : String)
    (peers : List (Option String × PeerRecord)) (path : String)
    (winner content : String) (p : PeerRecord) (post : List String)
    (hw : winner ≠ selfId) (hreg : jget peers (some winner) = some p)
    (hnet : net p.address p.port path = some content) (hcne : content ≠ "") :
    ∀ (pre : List String) (stats : Stats),
      (∀ n ∈ pre, candidateFails net selfId peers path n = true) →
      tryPeers net selfId peers path (pre ++ winner :: post) stats =
        (some (winner, content), { stats with
          peerRequests :=
            stats.peerRequests + countFetched selfId peers pre + 1 }) := by
  intro pre
  induction pre with
  | nil =>
    intro stats _
    rw [List.nil_append, tryPeers, if_neg hw]
    simp only [fetchFromPeer, hreg, hnet]
    rw [if_neg hcne, show countFetched selfId peers [] = 0 from rfl]
  | cons n rest ih =>
    intro stats hfail
    have hn := hfail n (List.mem_cons_self n rest)
    have hrest : ∀ m ∈ rest, candidateFails net selfId peers path m = true :=
      fun m hm => hfail m (List.mem_cons_of_mem n hm)
    rw [List.cons_append]
    by_cases hself : n = selfId
    · rw [tryPeers, if_pos hself, ih stats hrest]
      have : countFetched selfId peers (n :: rest) = countFetched selfId peers rest := by
        simp [countFetched, List.filter_cons, hself]
      rw [this]
    · rw [tryPeers, if_neg hself]
      simp only [candidateFails, Bool.or_eq_true, beq_iff_eq] at hn
      rcases hn with hn | hn
      · exact absurd hn hself
      · cases hc : jget peers (some n) with
        | none =>
          rw [hc] at hn
          simp only [fetchFromPeer, hc]
          rw [ih stats hrest]
          have : countFetched selfId peers (n :: rest) = countFetched selfId peers rest := by
            simp [countFetched, List.filter_cons, hself, hc]
          rw [this]
        | some q =>
          simp only [hc] at hn
          have hcount : countFetched selfId peers (n :: rest) =
              countFetched selfId peers rest + 1 := by
            simp [countFetched, List.filter_cons, hself, hc]
          cases hnn : net q.address q.port path with
          | none =>
            simp only [fetchFromPeer, hc, hnn]
            rw [ih _ hrest, hcount]
            cases stats
            simp
            omega
          | some s =>
            simp only [hnn] at hn
            have hse : s = "" := by simpa using hn
            subst hse
            simp only [fetchFromPeer, hc, hnn]
            rw [if_pos trivial, ih _ hrest, hcount]
            cases stats
            simp
            omega

/-- A content request whose path hits the cache with a non-empty value (the
truthy case of the source's `if (cached)`) is answered from the cache tier
with that value; neither peers nor the backing store are involved. -/
theorem handleRequest_hit (hashPath : String → String) (net : Net)
    (backing : Option (String → Option String)) (st : NodeState)
    (path content : String)
    (hs : path ≠ "/stats") (hh : path ≠ "/health") (hp : path ≠ "/peers")
    (hhit : (st.cache.get path).1 = some content) (hne : content ≠ "") :
    (handleRequest hashPath net backing st path).1 =
      ⟨200, some st.nodeId, some "cache", none, some content⟩ := by
  simp only [handleRequest, if_neg hs, if_neg hh, if_neg hp, hhit, if_neg hne]

/-- A cache lookup whose first component is `none` did not mutate the cache:
`get` returns early on a real miss. -/
theorem get_miss_eq (c : LRUCache) (key : String)
    (h : (c.get key).1 = none) : c.get key = (none, c) := by
  unfold LRUCache.get at h ⊢
  cases hc : jget c.cache key with
  | none => rfl
  | some e =>
    rw [hc] at h
    simp at h

end NodeLemmas

section InvariantLemmas

/-- Folding `set` over a list of put operations preserves consistency, the
configured limits, and both occupancy bounds, provided the item limit is
positive and no single value exceeds the byte limit. -/
theorem applyPuts_inv (ops : List (String × String)) :
    ∀ c : LRUCache, CacheWf c →
      c.cache.length ≤ c.maxSize → c.currentBytes ≤ (c.maxBytes : Int) →
      1 ≤ c.maxSize → (∀ p ∈ ops, byteLength p.2 ≤ c.maxBytes) →
      CacheWf (applyPuts c ops) ∧
      (applyPuts c ops).maxSize = c.maxSize ∧
      (applyPuts c ops).maxBytes = c.maxBytes ∧
      (applyPuts c ops).cache.length ≤ c.maxSize ∧
      (applyPuts c ops).currentBytes ≤ (c.maxBytes : Int) := by
  induction ops with
  | nil =>
    intro c hwf hlen hbytes hpos _
    exact ⟨hwf, rfl, rfl, hlen, hbytes⟩
  | cons op rest ih =>
    intro c hwf _ _ hpos hops
    obtain ⟨k, v⟩ := op
    have hv : byteLength v ≤ c.maxBytes := hops (k, v) (List.mem_cons_self _ _)
    have h1 : CacheWf (c.set k v) := set_wf c k v hwf
    have h2 : (c.set k v).cache.length ≤ (c.set k v).maxSize := by
      rw [set_maxSize]
      exact set_length_le c k v hpos
    have h3 : (c.set k v).currentBytes ≤ ((c.set k v).maxBytes : Int) := by
      rw [set_maxBytes]
      exact set_bytes_le c k v hwf hv
    have h4 : 1 ≤ (c.set k v).maxSize := by
      rw [set_maxSize]
      exact hpos
    have h5 : ∀ p ∈ rest, byteLength p.2 ≤ (c.set k v).maxBytes := by
      rw [set_maxBytes]
      exact fun p hpm => hops p (List.mem_cons_of_mem _ hpm)
    have happ : applyPuts c ((k, v) :: rest) = applyPuts (c.set k v) rest := rfl
    obtain ⟨i1, i2, i3, i4, i5⟩ := ih (c.set k v) h1 h2 h3 h4 h5
    rw [happ]
    rw [set_maxSize] at i2 i4
    rw [set_maxBytes] at i3 i5
    exact ⟨i1, i2, i3, i4, i5⟩

end InvariantLemmas

section Claims

/-- Claim C1, counterexample. The claim "after each `put`, `currentBytes ≤
maxBytes`" fails as stated: a single put of a 4-byte value into a fresh cache
with `maxBytes = 3` leaves `currentBytes = 4 > 3` (the eviction loop empties
the cache and the oversized entry is admitted anyway). -/
theorem c1_eviction_bound_counterexample :
    ¬ ((applyPuts (LRUCache.empty 5 3) [("k", "abcd")]).currentBytes ≤
        ((LRUCache.empty 5 3).maxBytes : Int)) := by decide

/-- Claim C1, amended. For every sequence of put operations on a fresh Eviction
Cache whose item limit is positive and in which every inserted value fits the
byte limit on its own, after each operation (every prefix of `ops` is itself
such a sequence) the entry count is at most `maxItems` and `currentBytes` is
at most `maxBytes`. -/
theorem c1_eviction_bound_amended (maxItems maxBytes : Nat)
    (ops : List (String × String)) (hpos : 1 ≤ maxItems)
    (hops : ∀ p ∈ ops, byteLength p.2 ≤ maxBytes) :
    (applyPuts (LRUCache.empty maxItems maxBytes) ops).cache.length ≤ maxItems ∧
    (applyPuts (LRUCache.empty maxItems maxBytes) ops).currentBytes ≤ (maxBytes : Int) := by
  have h := applyPuts_inv ops (LRUCache.empty maxItems maxBytes)
    ⟨List.nodup_nil, rfl⟩ (by simp [LRUCache.empty])
    (by simp [LRUCache.empty]) hpos hops
  exact ⟨h.2.2.2.1, h.2.2.2.2⟩

/-- Claim C1, witness. The amended bound evaluated on a concrete two-put run. -/
theorem c1_eviction_bound_witness :
    (applyPuts (LRUCache.empty 2 10) [("a", "hi"), ("b", "hello")]).cache.length ≤ 2 ∧
    (applyPuts (LRUCache.empty 2 10) [("a", "hi"), ("b", "hello")]).currentBytes ≤
      ((10 : Nat) : Int) :=
  c1_eviction_bound_amended 2 10 [("a", "hi"), ("b", "hello")] (by decide) (by decide)

/-- Claim C2. `LRUCache.set` never rejects an insertion: after every
`set key value` the key is present and `get key` returns `value`; the item
count stays within a positive `maxSize`; and when the value alone exceeds
`maxBytes`, the eviction loop first empties the cache and the oversized
entry is admitted anyway, so the resulting cache is exactly that one entry
and `currentBytes` equals its size (exceeding `maxBytes`). -/
theorem c2_insertion_never_rejected (c : LRUCache) (key value : String) :
    ((c.set key value).get key).1 = some value ∧
    (c.set key value).has key = true ∧
    (1 ≤ c.maxSize → (c.set key value).cache.length ≤ c.maxSize) ∧
    (CacheWf c → c.maxBytes < byteLength value →
      (c.set key value).cache = [(key, ⟨value, byteLength value⟩)] ∧
      (c.set key value).currentBytes = (byteLength value : Int)) :=
  ⟨set_get_self c key value, set_has_self c key value,
    fun hpos => set_length_le c key value hpos,
    fun hwf hv => set_oversized c key value hwf hv⟩

/-- Claim C2, witness. A 4-byte value into a fresh cache with `maxBytes = 3`:
inserted, retrievable, sole entry, `currentBytes = 4`. -/
theorem c2_insertion_never_rejected_witness :
    (((LRUCache.empty 2 3).set "k" "abcd").get "k").1 = some "abcd" ∧
    ((LRUCache.empty 2 3).set "k" "abcd").has "k" = true ∧
    ((LRUCache.empty 2 3).set "k" "abcd").cache.length ≤ 2 ∧
    ((LRUCache.empty 2 3).set "k" "abcd").cache =
      [("k", ⟨"abcd", byteLength "abcd"⟩)] ∧
    ((LRUCache.empty 2 3).set "k" "abcd").currentBytes =
      ((byteLength "abcd" : Nat) : Int) := by
  obtain ⟨h1, h2, h3, h4⟩ := c2_insertion_never_rejected (LRUCache.empty 2 3) "k" "abcd"
  obtain ⟨h5, h6⟩ := h4 (by decide) (by decide)
  exact ⟨h1, h2, h3 (by decide), h5, h6⟩

/-- Claim C6. With item capacity 2, the sequence `put A`, `put B`, `get A`,
`put C` evicts `B` and not `A`: the intervening `get` moved `A` to the
most-recently-used end, so eviction removed `B`, leaving exactly `[A, C]`. -/
theorem c6_recency_correctness :
    (((((LRUCache.empty 2 1000).set "A" "va").set "B" "vb").get "A").1 = some "va") ∧
    ((((((LRUCache.empty 2 1000).set "A" "va").set "B" "vb").get "A").2).set "C" "vc").has "B" = false ∧
    ((((((LRUCache.empty 2 1000).set "A" "va").set "B" "vb").get "A").2).set "C" "vc").has "A" = true ∧
    ((((((LRUCache.empty 2 1000).set "A" "va").set "B" "vb").get "A").2).set "C" "vc").has "C" = true ∧
    jkeys ((((((LRUCache.empty 2 1000).set "A" "va").set "B" "vb").get "A").2).set "C" "vc").cache =
      ["A", "C"] := by decide

/-- Claim C7. Recording five distinct node identifiers sequentially against
one content address leaves exactly the 3 most recently recorded, in
recording order, the oldest two having been dropped first (FIFO). -/
theorem c7_replication_bound :
    jget (["n1", "n2", "n3", "n4", "n5"].foldl
        (fun d n => updateDHT d "addr" n) []) "addr" =
      some ["n3", "n4", "n5"] := by decide

/-- Claim C8. Recording the same node identifier a second time for the same
address is a no-op (so the sequence length does not grow), and recording
preserves the no-duplicate invariant of every hint sequence. -/
theorem c8_no_duplicate_hints (dht : List (String × List String))
    (addr nid : String) :
    updateDHT (updateDHT dht addr nid) addr nid = updateDHT dht addr nid ∧
    (DhtNodup dht → DhtNodup (updateDHT dht addr nid)) :=
  ⟨updateDHT_already _ _ _ (updateDHT_mem dht addr nid),
    fun hd => updateDHT_nodup dht addr nid hd⟩

/-- Claim C8, witness. Double-recording on a concrete table. -/
theorem c8_no_duplicate_hints_witness :
    updateDHT (updateDHT [("addr", ["m"])] "addr" "n1") "addr" "n1" =
      updateDHT [("addr", ["m"])] "addr" "n1" ∧
    DhtNodup (updateDHT [("addr", ["m"])] "addr" "n1") :=
  ⟨(c8_no_duplicate_hints [("addr", ["m"])] "addr" "n1").1,
    (c8_no_duplicate_hints [("addr", ["m"])] "addr" "n1").2 (by decide)⟩

/-- Claim C5, counterexample. The claimed shutdown order (timer, UDP socket,
HTTP listener) is not the code's: with all three resources live, the trace
closes the HTTP listener before the UDP discovery socket. -/
theorem c5_shutdown_order_counterexample :
    shutdownSequence true true true ≠
      [ShutdownStep.cancelAnnounceTimer, ShutdownStep.closeDiscoverySocket,
        ShutdownStep.closeHttpServer] ∧
    shutdownSequence true true true =
      [ShutdownStep.cancelAnnounceTimer, ShutdownStep.closeHttpServer,
        ShutdownStep.closeDiscoverySocket] := by decide

/-- Claim C5, amended. Shutdown releases whichever resources are live in the
fixed order: cancel the announce timer first, then close the HTTP listener,
then close the UDP discovery socket. -/
theorem c5_shutdown_order_amended : ∀ t s u : Bool,
    List.Sublist (shutdownSequence t s u)
      [ShutdownStep.cancelAnnounceTimer, ShutdownStep.closeHttpServer,
        ShutdownStep.closeDiscoverySocket] ∧
    (ShutdownStep.cancelAnnounceTimer ∈ shutdownSequence t s u ↔ t = true) ∧
    (ShutdownStep.closeHttpServer ∈ shutdownSequence t s u ↔ s = true) ∧
    (ShutdownStep.closeDiscoverySocket ∈ shutdownSequence t s u ↔ u = true) := by
  decide

/-- Claim C9, counterexample. A JSON datagram of the wrong shape — it carries
`type: "peer_announce"` but no `nodeId` (nor any other schema field) — is
not a valid `peer_announce` under the spec's schema, yet handling it does
mutate the Peer Registry: an entry keyed by the absent identifier is
created. -/
theorem c9_malformed_gossip_counterexample :
    validAnnounceSpec
      (Datagram.json (some "peer_announce") none none none none none none none) = false ∧
    handlePeerMessage "self" 0 "10.0.0.1" []
      (Datagram.json (some "peer_announce") none none none none none none none) ≠ [] := by
  decide

/-- Claim C9, amended. The listener never raises (it is total), and the Peer
Registry is left unchanged exactly for the datagrams its guard rejects:
non-JSON input, a type field other than `peer_announce`, or an announcement
carrying the receiving node's own identifier. (Shape is not otherwise
validated: a `peer_announce`-typed datagram with missing fields is still
registered, with defaults.) -/
theorem c9_malformed_gossip_amended (selfId : String) (now : Nat)
    (addr : String) (peers : List (Option String × PeerRecord)) (d : Datagram)
    (hrej : announceAccepted selfId d = false) :
    handlePeerMessage selfId now addr peers d = peers := by
  cases d with
  | nonJson => rfl
  | json type nodeId nodeName port timestamp cacheSize cacheBytes stats =>
    have hncond : ¬ (type = some "peer_announce" ∧ nodeId ≠ some selfId) := by
      rintro ⟨rfl, h2⟩
      simp only [announceAccepted] at hrej
      simp at hrej
      exact h2 hrej
    simp only [handlePeerMessage, if_neg hncond]

/-- Claim C9, witness. A non-JSON datagram against an empty registry. -/
theorem c9_malformed_gossip_witness :
    handlePeerMessage "self" 7 "10.0.0.9" [] Datagram.nonJson = [] :=
  c9_malformed_gossip_amended "self" 7 "10.0.0.9" [] Datagram.nonJson (by decide)

/-- Claim C4, counterexample. An administrative request is not a pure read of
the statistics counters: handling `GET /health` increments the `requests`
counter. -/
theorem c4_admin_pure_read_counterexample :
    (handleRequest (fun q => q) (fun _ _ _ => none) none demoNode "/health").2.stats.requests ≠
      demoNode.stats.requests := by decide

/-- Claim C4, amended. Handling `GET /health`, `GET /stats` or `GET /peers`
leaves the Cache, the Location Hints and the Peer Registry unchanged and
touches no statistics counter except `requests`, which is incremented by
one (the handler counts every HTTP request before dispatching). -/
theorem c4_admin_pure_read_amended (hashPath : String → String) (net : Net)
    (backing : Option (String → Option String)) (st : NodeState) (path : String)
    (hadmin : path = "/stats" ∨ path = "/health" ∨ path = "/peers") :
    (handleRequest hashPath net backing st path).2 =
      { st with stats := { st.stats with requests := st.stats.requests + 1 } } := by
  rcases hadmin with rfl | rfl | rfl <;> simp [handleRequest]

/-- Claim C4, witness. The amended frame condition evaluated on `/health`. -/
theorem c4_admin_pure_read_witness :
    (handleRequest (fun q => q) (fun _ _ _ => none) none demoNode "/health").2 =
      { demoNode with stats :=
        { demoNode.stats with requests := demoNode.stats.requests + 1 } } :=
  c4_admin_pure_read_amended (fun q => q) (fun _ _ _ => none) none demoNode
    "/health" (Or.inr (Or.inl rfl))

/-- Claim C3, counterexample. A fresh node, a cache/peer miss for `/a.txt`,
and a backing store returning `"X"`: every precondition of the claim holds,
yet the `X-CDN-Source` response header is `"github"`, not `"backing-store"`
as the claim asserts. -/
theorem c3_backing_store_counterexample :
    (handleRequest (fun q => q) (fun _ _ _ => none)
        (some fun _ => some "X") demoNode "/a.txt").1.source ≠ some "backing-store" ∧
    (handleRequest (fun q => q) (fun _ _ _ => none)
        (some fun _ => some "X") demoNode "/a.txt").1.source = some "github" := by
  decide

/-- Claim C3, amended. When the pipeline obtains content from the backing
store for a path unresolved by cache and peers, it inserts the content into
the Cache, records `(address, selfNodeId)` into the Location Hints, and
responds with status 200, the content, and source tag `"github"` (the
literal the code uses for the backing-store tier); when the content is
non-empty — truthy under the source's `if (cached)` check — a subsequent
identical request is served from the cache. -/
theorem c3_backing_store_amended (hashPath : String → String) (net : Net)
    (read : String → Option String) (st : NodeState) (path content : String)
    (hs : path ≠ "/stats") (hh : path ≠ "/health") (hp : path ≠ "/peers")
    (hmiss : (st.cache.get path).1 = none)
    (hfail : ∀ n ∈ (jget st.dht (hashPath path)).getD [],
      candidateFails net st.nodeId st.peers path n = true)
    (hread : read path = some content) :
    (handleRequest hashPath net (some read) st path).1 =
      ⟨200, some st.nodeId, some "github", none, some content⟩ ∧
    (((handleRequest hashPath net (some read) st path).2.cache.get path).1 =
      some content) ∧
    st.nodeId ∈
      (jget (handleRequest hashPath net (some read) st path).2.dht
        (hashPath path)).getD [] ∧
    (content ≠ "" →
      ∀ (net' : Net) (backing' : Option (String → Option String)),
        (handleRequest hashPath net' backing'
            (handleRequest hashPath net (some read) st path).2 path).1 =
          ⟨200, some st.nodeId, some "cache", none, some content⟩) := by
  have hg : st.cache.get path = (none, st.cache) := get_miss_eq st.cache path hmiss
  have htry : ∀ s : Stats,
      tryPeers net st.nodeId st.peers path
        ((jget st.dht (hashPath path)).getD []) s =
      (none, { s with
        peerRequests := s.peerRequests +
          countFetched st.nodeId st.peers ((jget st.dht (hashPath path)).getD []) }) :=
    fun s => tryPeers_all_fail net st.nodeId st.peers path _ s hfail
  refine ⟨?_, ?_, ?_, ?_⟩
  · simp only [handleRequest, handleMiss, if_neg hs, if_neg hh, if_neg hp, hg, htry, hread]
  · simp only [handleRequest, handleMiss, if_neg hs, if_neg hh, if_neg hp, hg, htry, hread]
    exact set_get_self st.cache path content
  · simp only [handleRequest, handleMiss, if_neg hs, if_neg hh, if_neg hp, hg, htry, hread]
    exact updateDHT_mem st.dht (hashPath path) st.nodeId
  · intro hcne net' backing'
    simp only [handleRequest, handleMiss, if_neg hs, if_neg hh, if_neg hp, hg, htry, hread,
      set_get_self, if_neg hcne]

/-- Claim C3, witness. The amended fallback behaviour evaluated on the
concrete run of the counterexample (the content `"X"` is non-empty, so the
cache-serve conjunct applies). -/
theorem c3_backing_store_witness :
    (handleRequest (fun q => q) (fun _ _ _ => none)
        (some fun _ => some "X") demoNode "/a.txt").1 =
      ⟨200, some demoNode.nodeId, some "github", none, some "X"⟩ ∧
    (((handleRequest (fun q => q) (fun _ _ _ => none)
        (some fun _ => some "X") demoNode "/a.txt").2.cache.get "/a.txt").1 =
      some "X") ∧
    demoNode.nodeId ∈
      (jget (handleRequest (fun q => q) (fun _ _ _ => none)
        (some fun _ => some "X") demoNode "/a.txt").2.dht
        ((fun q => q) "/a.txt")).getD [] ∧
    (∀ (net' : Net) (backing' : Option (String → Option String)),
      (handleRequest (fun q => q) net' backing'
          (handleRequest (fun q => q) (fun _ _ _ => none)
            (some fun _ => some "X") demoNode "/a.txt").2 "/a.txt").1 =
        ⟨200, some demoNode.nodeId, some "cache", none, some "X"⟩) := by
  obtain ⟨h1, h2, h3, h4⟩ :=
    c3_backing_store_amended (fun q => q) (fun _ _ _ => none)
      (fun _ => some "X") demoNode "/a.txt" "X"
      (by decide) (by decide) (by decide) (by decide) (by decide) rfl
  exact ⟨h1, h2, h3, h4 (by decide)⟩

/-- Claim C10, counterexample. The claim says the first successful peer
response terminates the iteration with no backing-store read. Concretely:
the sole hint candidate `e1` for `/x` is resolvable and its fetch succeeds
(`response.ok`, one `peerRequests` bump) — but with an empty body, which
the source's `if (content)` treats as falsy — so the pipeline continues
past it, reads the backing store (`githubFallbacks` becomes 1) and serves
source `"github"` with no peer identifier. -/
theorem c10_peer_short_circuit_counterexample :
    emptyNet emptyPeer.address emptyPeer.port "/x" = some "" ∧
    (handleRequest (fun q => q) emptyNet (some fun _ => some "B") emptyNode "/x").2.stats.peerRequests = 1 ∧
    (handleRequest (fun q => q) emptyNet (some fun _ => some "B") emptyNode "/x").1.source = some "github" ∧
    (handleRequest (fun q => q) emptyNet (some fun _ => some "B") emptyNode "/x").1.peer = none ∧
    (handleRequest (fun q => q) emptyNet (some fun _ => some "B") emptyNode "/x").2.stats.githubFallbacks = 1 := by
  decide

/-- Claim C10, amended. In the peer tier the location-hint candidates are
tried in recorded order, skipping self; candidates that fail (self, unknown
to the registry, timeout/refusal/non-success, or a successful response with
an empty body — falsy under the source's `if (content)` — all absorbed
without surfacing an error) are passed over, each resolvable one costing
exactly one `peerRequests` bump; the first peer answering with non-empty
content terminates the iteration: the response carries source tag `"peer"`,
that peer's identifier and its content, the fetched content is cached,
`githubFallbacks` is untouched and the whole outcome is independent of the
backing store (no backing-store read occurs), and the candidates after the
winner contribute nothing. -/
theorem c10_peer_short_circuit (hashPath : String → String) (net : Net)
    (backing : Option (String → Option String)) (st : NodeState)
    (path content winner : String) (p : PeerRecord) (pre post : List String)
    (hs : path ≠ "/stats") (hh : path ≠ "/health") (hp : path ≠ "/peers")
    (hmiss : (st.cache.get path).1 = none)
    (hdht : (jget st.dht (hashPath path)).getD [] = pre ++ winner :: post)
    (hfail : ∀ n ∈ pre, candidateFails net st.nodeId st.peers path n = true)
    (hw : winner ≠ st.nodeId)
    (hreg : jget st.peers (some winner) = some p)
    (hnet : net p.address p.port path = some content) (hcne : content ≠ "") :
    (handleRequest hashPath net backing st path).1 =
      ⟨200, some st.nodeId, some "peer", some winner, some content⟩ ∧
    (handleRequest hashPath net backing st path).2.stats.githubFallbacks =
      st.stats.githubFallbacks ∧
    (handleRequest hashPath net backing st path).2.stats.peerRequests =
      st.stats.peerRequests + countFetched st.nodeId st.peers pre + 1 ∧
    (∀ backing' : Option (String → Option String),
      handleRequest hashPath net backing' st path =
        handleRequest hashPath net backing st path) ∧
    ((handleRequest hashPath net backing st path).2.cache.get path).1 =
      some content := by
  have hg : st.cache.get path = (none, st.cache) := get_miss_eq st.cache path hmiss
  have htry : ∀ s : Stats,
      tryPeers net st.nodeId st.peers path (pre ++ winner :: post) s =
      (some (winner, content), { s with
        peerRequests := s.peerRequests + countFetched st.nodeId st.peers pre + 1 }) :=
    fun s => tryPeers_first_success net st.nodeId st.peers path winner content
      p post hw hreg hnet hcne pre s hfail
  refine ⟨?_, ?_, ?_, ?_, ?_⟩
  · simp only [handleRequest, handleMiss, if_neg hs, if_neg hh, if_neg hp, hg, hdht, htry]
  · simp only [handleRequest, handleMiss, if_neg hs, if_neg hh, if_neg hp, hg, hdht, htry]
  · simp only [handleRequest, handleMiss, if_neg hs, if_neg hh, if_neg hp, hg, hdht, htry]
  · intro backing'
    simp only [handleRequest, handleMiss, if_neg hs, if_neg hh, if_neg hp, hg, hdht, htry]
  · simp only [handleRequest, handleMiss, if_neg hs, if_neg hh, if_neg hp, hg, hdht, htry]
    exact set_get_self st.cache path content

/-- Claim C10, witness. Five hint candidates `p1, p2, self, p3, p4` for `/x`:
`p1` is known but unreachable, `p2` unknown, `self` skipped; `p3` answers
with the non-empty body `"C"`, so the response is served from `p3` and `p4`
is never tried. -/
theorem c10_peer_short_circuit_witness :
    (handleRequest (fun q => q) demoNet (some fun _ => some "B") peerNode "/x").1 =
      ⟨200, some peerNode.nodeId, some "peer", some "p3", some "C"⟩ ∧
    (handleRequest (fun q => q) demoNet (some fun _ => some "B") peerNode "/x").2.stats.githubFallbacks =
      peerNode.stats.githubFallbacks ∧
    (handleRequest (fun q => q) demoNet (some fun _ => some "B") peerNode "/x").2.stats.peerRequests =
      peerNode.stats.peerRequests +
        countFetched peerNode.nodeId peerNode.peers ["p1", "p2", "self"] + 1 ∧
    (∀ backing' : Option (String → Option String),
      handleRequest (fun q => q) demoNet backing' peerNode "/x" =
        handleRequest (fun q => q) demoNet (some fun _ => some "B") peerNode "/x") ∧
    ((handleRequest (fun q => q) demoNet (some fun _ => some "B") peerNode "/x").2.cache.get "/x").1 =
      some "C" :=
  c10_peer_short_circuit (fun q => q) demoNet (some fun _ => some "B") peerNode
    "/x" "C" "p3" demoPeer3 ["p1", "p2", "self"] ["p4"]
    (by decide) (by decide) (by decide) (by decide) (by decide) (by decide)
    (by decide) (by decide) (by decide) (by decide)

end Claims
